import Mathlib

/-!
Shallow embedding of the summon crate (src/lib.rs), a backward-chaining
resolution engine: a registry (Tome) of typed production rules
(Transmutation), a recursive plan search (research_id), a deduplicated
execution plan (Recipe) and a type-erased value store (Materials).

Modelling conventions:
* TypeId is an opaque comparable token, modelled as Nat.
* Box<dyn Any> is modelled by Dyn, a pair of the runtime type key and a
  Nat payload; Clone on the payload is the identity.
* A trait object implementing Transmutation is modelled by the structure
  Rule with the three members of the trait.
* HashMap is modelled as an association list (insertion ordered) with
  lookup (alookup) and insert (aupdate); this is faithful for maps that
  are only read through get/entry.  The one place the source ITERATES a
  HashMap (the loop over other_products in Recipe::join) has an
  unspecified, per-instance randomized order in Rust; that order is made
  explicit as an oracle parameter (MapOrder, valid when it permutes the
  entry list).  Theorems quantify over every valid oracle.
* research_id recurses without any cycle detection, so the embedding
  adds an explicit fuel argument; the outer Option is none when fuel
  runs out (the Rust recursion has not come back yet), some none models
  the definite failure None, and some (some r) a found Recipe.
* Rust panics (the unwrap in Materials::apply, the expect/downcast in
  into_material) are modelled by none / SummonRes.fatal results.
-/

/-- Model of a type-erased boxed value (Box<dyn Any>): the runtime type
key together with its payload. -/
structure Dyn where
  ty : Nat
  val : Nat
deriving DecidableEq

/-- Model of a trait object implementing Transmutation (src/lib.rs
lines 52-57): ingredient type keys, the product type key, and the
transform on type-erased values. -/
structure Rule where
  ingredients : List Nat
  product : Nat
  transmute : List Dyn → Dyn

/-- Lookup in an association list by key, first match wins; models
HashMap::get. -/
def alookup {β : Type _} : List (Nat × β) → Nat → Option β
  | [], _ => none
  | (k, v) :: rest, a => if a = k then some v else alookup rest a

/-- Insert or overwrite in an association list; models HashMap::insert
and the entry API. -/
def aupdate {β : Type _} : List (Nat × β) → Nat → β → List (Nat × β)
  | [], k, v => [(k, v)]
  | (k2, v2) :: rest, k, v =>
    if k = k2 then (k, v) :: rest else (k2, v2) :: aupdate rest k v

/-- Stable insertion of a rule into a list, by ascending ingredient
count: the new element goes after every element with a strictly smaller
count and before the first element with a greater-or-equal count that
follows elements with smaller counts. -/
def insertByCount (c : Rule) : List Rule → List Rule
  | [] => [c]
  | x :: xs =>
    if x.ingredients.length < c.ingredients.length then x :: insertByCount c xs
    else c :: x :: xs

/-- Stable sort by ascending ingredient count.  Vec::sort_by_key is a
stable sort; insertion sort is extensionally the same function on lists
(sorted output whose equal-key runs keep the input order). -/
def sortByCount : List Rule → List Rule
  | [] => []
  | x :: xs => insertByCount x (sortByCount xs)

/-- The registry (struct Tome, src/lib.rs lines 152-157): transmutation
circles organized by their products. -/
structure Tome where
  circles : List (Nat × List Rule)

/-- Tome::new / Default. -/
def Tome.empty : Tome := ⟨[]⟩

/-- self.circles.get(&id). -/
def Tome.lookup (t : Tome) (id : Nat) : Option (List Rule) :=
  alookup t.circles id

/-- Tome::inscribe (src/lib.rs lines 165-170): push the circle onto the
list keyed by its product (creating it when absent), then re-sort the
list stably by ingredient count. -/
def Tome.inscribe (t : Tome) (circle : Rule) : Tome :=
  ⟨aupdate t.circles circle.product
    (sortByCount (((t.lookup circle.product).getD []) ++ [circle]))⟩

/-- The fact rule Ether<T> (src/lib.rs lines 59-71): no ingredients,
product is the TypeId of T, transmute ignores its inputs and returns a
boxed clone of the stored value. -/
def mkEther (ty v : Nat) : Rule :=
  { ingredients := [], product := ty, transmute := fun _ => ⟨ty, v⟩ }

/-- Tome::ether (src/lib.rs lines 172-175). -/
def Tome.ether (t : Tome) (ty v : Nat) : Tome :=
  t.inscribe (mkEther ty v)

/-- A plan (struct Recipe, src/lib.rs lines 217-221): the ordered steps
and the map from product type key to the index of its step. -/
structure Recipe where
  steps : List Rule
  products : List (Nat × Nat)

/-- Recipe::default. -/
def Recipe.empty : Recipe := ⟨[], []⟩

/-- From<&dyn Transmutation> for Recipe (src/lib.rs lines 223-230). -/
def Recipe.ofRule (circle : Rule) : Recipe :=
  ⟨[circle], [(circle.product, 0)]⟩

/-- Junk rule used to make out-of-bounds indexing total; under the
recipe invariant the index other_steps[step] is always in bounds (in
Rust an out-of-bounds index would panic). -/
def Rule.dummy : Rule := ⟨[], 0, fun _ => ⟨0, 0⟩⟩

/-- The loop body of Recipe::join (src/lib.rs lines 242-247), folded
over the entries of other.products in the order the HashMap yields
them: keys already present are kept (first wins), otherwise the
corresponding step of the other recipe is appended and recorded under
the next index. -/
def Recipe.joinList (otherSteps : List Rule) : Recipe → List (Nat × Nat) → Recipe
  | acc, [] => acc
  | acc, (p, k) :: rest =>
    match alookup acc.products p with
    | some _ => Recipe.joinList otherSteps acc rest
    | none =>
      Recipe.joinList otherSteps
        ⟨acc.steps ++ [otherSteps.getD k Rule.dummy],
         acc.products ++ [(p, acc.steps.length)]⟩ rest

/-- An iteration-order oracle for the HashMap loop in Recipe::join: the
order in which for (product, step) in other_products yields entries. -/
abbrev MapOrder := List (Nat × Nat) → List (Nat × Nat)

/-- An oracle is a possible HashMap iteration order when it yields
exactly the entries of the map, in some order. -/
def IterOrder (σ : MapOrder) : Prop := ∀ l, List.Perm (σ l) l

/-- Iteration in insertion order, one possible HashMap order. -/
def idOrd : MapOrder := fun l => l

/-- Iteration in reverse insertion order, another possible HashMap
order. -/
def revOrd : MapOrder := fun l => l.reverse

/-- Recipe::join (src/lib.rs lines 232-249) with the iteration order of
other.products supplied by the oracle. -/
def Recipe.join (σ : MapOrder) (self other : Recipe) : Recipe :=
  Recipe.joinList other.steps self (σ other.products)

/-- The fold over a candidate circle ingredient list inside
Tome::research_id (src/lib.rs lines 204-210): starting from
Some(Recipe::default()), research each ingredient in order and join the
sub-recipe onto the accumulator, short-circuiting on failure.  res is
the recursive call (already applied to the current fuel). -/
def foldIngs (res : Nat → Option (Option Recipe)) (σ : MapOrder) :
    List Nat → Recipe → Option (Option Recipe)
  | [], acc => some (some acc)
  | ing :: rest, acc =>
    match res ing with
    | none => none
    | some none => some none
    | some (some next) => foldIngs res σ rest (Recipe.join σ acc next)

/-- The body applied to one candidate circle inside research_id: fold
over its ingredients, then join the circle itself on success
(src/lib.rs lines 202-211). -/
def tryCircle (res : Nat → Option (Option Recipe)) (σ : MapOrder) (circle : Rule) :
    Option (Option Recipe) :=
  match foldIngs res σ circle.ingredients Recipe.empty with
  | none => none
  | some none => some none
  | some (some recipe) => some (some (Recipe.join σ recipe (Recipe.ofRule circle)))

/-- possibilities.iter().find_map(...) over the candidate circles in
registry order (src/lib.rs line 201): first definite success wins,
definite failures advance to the next candidate, and an out-of-fuel
candidate leaves the whole search undecided (in Rust the recursion
simply has not returned). -/
def findMapCircles (res : Nat → Option (Option Recipe)) (σ : MapOrder) :
    List Rule → Option (Option Recipe)
  | [] => some none
  | c :: rest =>
    match tryCircle res σ c with
    | none => none
    | some none => findMapCircles res σ rest
    | some (some r) => some (some r)

/-- Tome::research_id (src/lib.rs lines 199-214) with fuel: absent key
fails definitely, otherwise the candidates are tried in list order.
The Rust function has no fuel and recurses without bound on cycles; the
fuel only truncates that recursion, it never changes a returned
value. -/
def researchF (σ : MapOrder) (t : Tome) : Nat → Nat → Option (Option Recipe)
  | 0, _ => none
  | n + 1, id =>
    match t.lookup id with
    | none => some none
    | some possibilities => findMapCircles (fun i => researchF σ t n i) σ possibilities

/-- The value store (struct Materials, src/lib.rs lines 252-255). -/
structure Materials where
  materials : List (Nat × Dyn)

/-- Materials::new / Default. -/
def Materials.empty : Materials := ⟨[]⟩

/-- Materials::get (src/lib.rs lines 262-264). -/
def Materials.get (m : Materials) (id : Nat) : Option Dyn :=
  alookup m.materials id

/-- The ingredient collection loop of Materials::apply: look every
ingredient up in order; a missing ingredient is the unwrap panic,
modelled as none. -/
def Materials.getAll (m : Materials) : List Nat → Option (List Dyn)
  | [] => some []
  | ing :: rest =>
    match m.get ing with
    | none => none
    | some d =>
      match m.getAll rest with
      | none => none
      | some ds => some (d :: ds)

/-- HashMap::insert on the store. -/
def Materials.insert (m : Materials) (id : Nat) (v : Dyn) : Materials :=
  ⟨aupdate m.materials id v⟩

/-- Materials::apply (src/lib.rs lines 266-275): collect the
ingredients (panicking on a missing one), transmute, insert the product
under its type key. -/
def Materials.apply (m : Materials) (circle : Rule) : Option Materials :=
  match m.getAll circle.ingredients with
  | none => none
  | some ds => some (m.insert circle.product (circle.transmute ds))

/-- FromIterator for Materials (src/lib.rs lines 287-298): apply every
step of the plan in order to the store. -/
def runFrom (m : Materials) : List Rule → Option Materials
  | [] => some m
  | c :: rest =>
    match m.apply c with
    | none => none
    | some m2 => runFrom m2 rest

/-- Materials::into_material (src/lib.rs lines 277-284): remove the
value stored under the requested type key (the expect panic when
absent) and downcast it (the unwrap panic when the runtime type key
does not match). -/
def Materials.intoMaterial (m : Materials) (id : Nat) : Option Nat :=
  match m.get id with
  | none => none
  | some d => if d.ty = id then some d.val else none

/-- Outcome of a summon call: the normal negative result, a fatal
panic, or the extracted value. -/
inductive SummonRes where
  | notFound
  | fatal
  | ok (v : Nat)
deriving DecidableEq

/-- Tome::summon / Tome::preserve (src/lib.rs lines 177-193) with
fuel: research a recipe (None from research is the normal not-found
outcome), run every step, then extract the requested value; panics
during the run or the extraction are fatal. -/
def summonF (σ : MapOrder) (t : Tome) (n : Nat) (id : Nat) : Option SummonRes :=
  match researchF σ t n id with
  | none => none
  | some none => some SummonRes.notFound
  | some (some recipe) =>
    match runFrom Materials.empty recipe.steps with
    | none => some SummonRes.fatal
    | some mats =>
      match mats.intoMaterial id with
      | none => some SummonRes.fatal
      | some v => some (SummonRes.ok v)

/-- Direct dependency in the ingredient graph: b is an ingredient of
some rule registered for a. -/
def Depends (t : Tome) (a b : Nat) : Prop :=
  ∃ l, t.lookup a = some l ∧ ∃ c, c ∈ l ∧ b ∈ c.ingredients

/-- A type key is supplyable when some registered rule for it has all
its ingredients supplyable (the well-founded derivations of the rule
system). -/
inductive Supplyable (t : Tome) : Nat → Prop where
  | mk (id : Nat) (l : List Rule) (c : Rule) :
      t.lookup id = some l → c ∈ l →
      (∀ ing, ing ∈ c.ingredients → Supplyable t ing) → Supplyable t id

/-- A step sequence is dependency ordered when every rule appears after
every rule producing one of its ingredients. -/
def DepOrdered (steps : List Rule) : Prop :=
  ∀ (i j : Nat) (hi : i < steps.length) (hj : j < steps.length) (ing : Nat),
    ing ∈ (steps.get ⟨i, hi⟩).ingredients →
    (steps.get ⟨j, hj⟩).product = ing → j < i

/-- Well-formedness every registry built through inscribe has: the list
keyed by a type key holds only rules producing that key. -/
def Tome.WF (t : Tome) : Prop :=
  ∀ id l, t.lookup id = some l → ∀ c, c ∈ l → c.product = id

/-- Structural invariant of recipes: every product entry indexes a step
producing that key, keys are registered at most once, and every step
index is registered. -/
structure RecipeInv (r : Recipe) : Prop where
  entries : ∀ p i, (p, i) ∈ r.products →
    ∃ h : i < r.steps.length, (r.steps.get ⟨i, h⟩).product = p
  keysNodup : (r.products.map Prod.fst).Nodup
  indexCover : ∀ i, i < r.steps.length → ∃ p, (p, i) ∈ r.products

/-- A registry built by a sequence of inscribe calls (ether is
inscribe of an Ether rule). -/
def buildTome (rs : List Rule) : Tome :=
  rs.foldl Tome.inscribe Tome.empty

/-- The search never comes back at any recursion depth: the Rust code
recurses without bound (stack overflow), never returning a result. -/
def summonDiverges (t : Tome) (id : Nat) : Prop :=
  ∀ n, summonF idOrd t n id = none

/-- Fact rule for type key 1 with payload 10. -/
def fact1 : Rule := mkEther 1 10

/-- Rule producing key 2 from key 1. -/
def ruleB : Rule := ⟨[1], 2, fun _ => ⟨2, 20⟩⟩

/-- Rule producing key 3 from key 2. -/
def ruleC : Rule := ⟨[2], 3, fun _ => ⟨3, 30⟩⟩

/-- A two-level dependency chain: fact 1, rule 1 → 2, rule 2 → 3. -/
def chainTome : Tome :=
  ((Tome.empty.ether 1 10).inscribe ruleB).inscribe ruleC

/-- Rule producing key 0 from key 0 itself. -/
def loopRule : Rule := ⟨[0], 0, fun _ => ⟨0, 0⟩⟩

/-- A registry whose only rule for key 0 requires key 0. -/
def loopTome : Tome := Tome.empty.inscribe loopRule

/-- A registry with a reachable cycle on key 0 and also a fact for key
0: the fact has fewer ingredients, so it is tried first. -/
def cycFactTome : Tome := (Tome.empty.inscribe loopRule).ether 0 7

/-- One-ingredient rule for key 5. -/
def ruleFew : Rule := ⟨[1], 5, fun _ => ⟨5, 50⟩⟩

/-- Two-ingredient rule for key 5. -/
def ruleMany : Rule := ⟨[1, 1], 5, fun _ => ⟨5, 55⟩⟩

/-- A registry with two competing rules for key 5 over a fact for key
1; registered many-first so the stable re-sort must order few-first. -/
def prefTome : Tome :=
  ((Tome.empty.ether 1 10).inscribe ruleMany).inscribe ruleFew

theorem alookup_eq_none {β : Type _} (l : List (Nat × β)) (a : Nat) :
    alookup l a = none ↔ a ∉ l.map Prod.fst := by
  induction l with
  | nil => simp [alookup]
  | cons kv rest ih =>
    obtain ⟨k, v⟩ := kv
    by_cases h : a = k <;> simp [alookup, h, ih]

theorem alookup_mem {β : Type _} (l : List (Nat × β)) (a : Nat) (b : β)
    (h : alookup l a = some b) : (a, b) ∈ l := by
  induction l with
  | nil => simp [alookup] at h
  | cons kv rest ih =>
    obtain ⟨k, v⟩ := kv
    by_cases hak : a = k
    · subst hak
      simp [alookup] at h
      simp [h]
    · simp [alookup, hak] at h
      simp [ih h]

theorem alookup_aupdate_self {β : Type _} (l : List (Nat × β)) (k : Nat) (v : β) :
    alookup (aupdate l k v) k = some v := by
  induction l with
  | nil => simp [aupdate, alookup]
  | cons kv rest ih =>
    obtain ⟨k2, v2⟩ := kv
    by_cases h : k = k2 <;> simp [aupdate, alookup, h, ih]

theorem alookup_aupdate_ne {β : Type _} (l : List (Nat × β)) (k a : Nat) (v : β)
    (h : a ≠ k) : alookup (aupdate l k v) a = alookup l a := by
  induction l with
  | nil => simp [aupdate, alookup, h]
  | cons kv rest ih =>
    obtain ⟨k2, v2⟩ := kv
    by_cases hk : k = k2
    · subst hk
      simp [aupdate, alookup, h]
    · by_cases hak : a = k2 <;> simp [aupdate, alookup, hk, hak, ih]

theorem insertByCount_perm (c : Rule) (l : List Rule) :
    List.Perm (insertByCount c l) (c :: l) := by
  induction l with
  | nil => simp [insertByCount]
  | cons x xs ih =>
    by_cases h : x.ingredients.length < c.ingredients.length
    · simp only [insertByCount, if_pos h]
      exact (ih.cons x).trans (List.Perm.swap c x xs)
    · simp [insertByCount, if_neg h]

theorem sortByCount_perm (l : List Rule) : List.Perm (sortByCount l) l := by
  induction l with
  | nil => simp [sortByCount]
  | cons x xs ih =>
    exact (insertByCount_perm x (sortByCount xs)).trans (ih.cons x)

theorem insertByCount_sorted (c : Rule) (l : List Rule)
    (h : l.Pairwise (fun a b => a.ingredients.length ≤ b.ingredients.length)) :
    (insertByCount c l).Pairwise (fun a b => a.ingredients.length ≤ b.ingredients.length) := by
  induction l with
  | nil => simp [insertByCount]
  | cons x xs ih =>
    rw [List.pairwise_cons] at h
    by_cases hlt : x.ingredients.length < c.ingredients.length
    · simp only [insertByCount, if_pos hlt]
      rw [List.pairwise_cons]
      constructor
      · intro y hy
        rcases List.mem_cons.mp ((insertByCount_perm c xs).mem_iff.mp hy) with hy | hy
        · exact hy ▸ Nat.le_of_lt hlt
        · exact h.1 y hy
      · exact ih h.2
    · simp only [insertByCount, if_neg hlt]
      rw [List.pairwise_cons]
      refine ⟨?_, List.pairwise_cons.mpr h⟩
      intro y hy
      rcases List.mem_cons.mp hy with hy | hy
      · exact hy ▸ Nat.le_of_not_lt hlt
      · exact Nat.le_trans (Nat.le_of_not_lt hlt) (h.1 y hy)

theorem sortByCount_sorted (l : List Rule) :
    (sortByCount l).Pairwise (fun a b => a.ingredients.length ≤ b.ingredients.length) := by
  induction l with
  | nil => simp [sortByCount]
  | cons x xs ih => exact insertByCount_sorted x (sortByCount xs) ih

theorem filter_insertByCount (c : Rule) (l : List Rule) (k : Nat) :
    (insertByCount c l).filter (fun r => r.ingredients.length == k) =
      if c.ingredients.length = k
      then c :: l.filter (fun r => r.ingredients.length == k)
      else l.filter (fun r => r.ingredients.length == k) := by
  induction l with
  | nil => by_cases h : c.ingredients.length = k <;> simp [insertByCount, h]
  | cons x xs ih =>
    by_cases hlt : x.ingredients.length < c.ingredients.length
    · have hx : ¬ (c.ingredients.length = k) ∨ ¬ (x.ingredients.length = k) := by
        by_cases hck : c.ingredients.length = k
        · right
          omega
        · left
          exact hck
      simp only [insertByCount, if_pos hlt]
      by_cases hck : c.ingredients.length = k
      · have hxk : ¬ x.ingredients.length = k := by omega
        simp [List.filter_cons, hxk, ih, hck]
      · simp [List.filter_cons, ih, hck]
    · simp only [insertByCount, if_neg hlt]
      by_cases hck : c.ingredients.length = k <;> simp [List.filter_cons, hck]

theorem filter_sortByCount (l : List Rule) (k : Nat) :
    (sortByCount l).filter (fun r => r.ingredients.length == k) =
      l.filter (fun r => r.ingredients.length == k) := by
  induction l with
  | nil => simp [sortByCount]
  | cons x xs ih =>
    by_cases hxk : x.ingredients.length = k <;>
      simp [sortByCount, filter_insertByCount, hxk, ih, List.filter_cons]

theorem Tome.WF_empty : Tome.empty.WF := by
  intro id l h
  simp [Tome.lookup, Tome.empty, alookup] at h

theorem Tome.WF_inscribe (t : Tome) (c : Rule) (h : t.WF) : (t.inscribe c).WF := by
  intro id l hl c' hc'
  by_cases hid : id = c.product
  · subst hid
    rw [Tome.lookup, Tome.inscribe, alookup_aupdate_self] at hl
    cases hl
    have hmem := (sortByCount_perm _).mem_iff.mp hc'
    rcases List.mem_append.mp hmem with hmem | hmem
    · cases ht : t.lookup c.product with
      | none => rw [ht] at hmem; simp at hmem
      | some l0 => rw [ht] at hmem; exact h c.product l0 ht c' hmem
    · rw [List.mem_singleton.mp hmem]
  · rw [Tome.lookup, Tome.inscribe, alookup_aupdate_ne _ _ _ _ hid] at hl
    exact h id l hl c' hc'

theorem buildTome_append (rs : List Rule) (c : Rule) :
    buildTome (rs ++ [c]) = (buildTome rs).inscribe c := by
  simp [buildTome, List.foldl_append]

theorem buildTome_lists (rs : List Rule) (p : Nat) :
    ((buildTome rs).lookup p = none → rs.filter (fun c => c.product == p) = []) ∧
    (∀ l, (buildTome rs).lookup p = some l →
      l.Pairwise (fun a b => a.ingredients.length ≤ b.ingredients.length) ∧
      ∀ k, l.filter (fun c => c.ingredients.length == k) =
        (rs.filter (fun c => c.product == p)).filter
          (fun c => c.ingredients.length == k)) := by
  induction rs using List.reverseRecOn with
  | nil =>
    constructor
    · intro _
      simp
    · intro l hl
      simp [buildTome, Tome.empty, Tome.lookup, alookup] at hl
  | append_singleton rs c ih =>
    rw [buildTome_append]
    by_cases hp : p = c.product
    · subst hp
      constructor
      · intro hnone
        rw [Tome.lookup, Tome.inscribe, alookup_aupdate_self] at hnone
        exact absurd hnone (by simp)
      · intro l hl
        rw [Tome.lookup, Tome.inscribe, alookup_aupdate_self] at hl
        injection hl with hl
        subst hl
        refine ⟨sortByCount_sorted _, ?_⟩
        intro k
        rw [filter_sortByCount]
        simp only [List.filter_append]
        cases ht : Tome.lookup (buildTome rs) c.product with
        | none =>
          rw [ih.1 ht]
          simp [List.filter_cons]
        | some l0 =>
          simp only [Option.getD_some]
          rw [(ih.2 l0 ht).2 k]
          simp [List.filter_cons]
    · constructor
      · intro hnone
        rw [Tome.lookup, Tome.inscribe, alookup_aupdate_ne _ _ _ _ hp] at hnone
        rw [List.filter_append, ih.1 hnone]
        simp [Ne.symm hp]
      · intro l hl
        rw [Tome.lookup, Tome.inscribe, alookup_aupdate_ne _ _ _ _ hp] at hl
        refine ⟨(ih.2 l hl).1, ?_⟩
        intro k
        rw [(ih.2 l hl).2 k, List.filter_append]
        simp [Ne.symm hp]

/-- Claim C6: after every sequence of inscribe/ether calls (ether is
inscribe of an Ether rule), each per-product candidate list in the
registry is sorted by ascending ingredient count, and the subsequence
of rules with any fixed ingredient count equals the subsequence of
registrations for that product with that count, i.e. ties keep
registration order (the re-sort on insertion is stable). -/
theorem C6_candidate_lists_sorted_stable (rs : List Rule) (p : Nat) (l : List Rule)
    (h : (buildTome rs).lookup p = some l) :
    l.Pairwise (fun a b => a.ingredients.length ≤ b.ingredients.length) ∧
    ∀ k, l.filter (fun c => c.ingredients.length == k) =
      (rs.filter (fun c => c.product == p)).filter
        (fun c => c.ingredients.length == k) :=
  (buildTome_lists rs p).2 l h

/-- Witness for C6 at a concrete registration sequence: two competing
rules for key 5 registered many-ingredients-first around a fact for
key 1; the stored list is re-sorted to few-first. -/
theorem C6_candidate_lists_sorted_stable_witness :
    (buildTome [ruleMany, fact1, ruleFew]).lookup 5 = some [ruleFew, ruleMany] ∧
    ([ruleFew, ruleMany].Pairwise
      (fun a b => a.ingredients.length ≤ b.ingredients.length) ∧
    ∀ k, [ruleFew, ruleMany].filter (fun c => c.ingredients.length == k) =
      (([ruleMany, fact1, ruleFew].filter (fun c => c.product == 5)).filter
        (fun c => c.ingredients.length == k))) :=
  ⟨rfl, C6_candidate_lists_sorted_stable [ruleMany, fact1, ruleFew] 5 [ruleFew, ruleMany] rfl⟩

/-- Claim C9: the fact rule Ether declares no ingredients, and its
transmute returns a boxed clone of the stored value for every input
slice, including non-empty ones: it never inspects its inputs and
cannot fail on an arity violation. -/
theorem C9_ether_transmute_ignores_inputs (F v : Nat) :
    (mkEther F v).ingredients = [] ∧
    ∀ inputs : List Dyn, (mkEther F v).transmute inputs = ⟨F, v⟩ :=
  ⟨rfl, fun _ => rfl⟩

/-- Claim C10: inscribe only touches the candidate list keyed by the
product of the inscribed rule; every other key maps to an unchanged
list. -/
theorem C10_inscribe_frame (t : Tome) (c : Rule) (p : Nat) (h : p ≠ c.product) :
    (t.inscribe c).lookup p = t.lookup p := by
  rw [Tome.lookup, Tome.inscribe]
  exact alookup_aupdate_ne _ _ _ _ h

/-- Witness for C10: inscribing the one-ingredient rule for key 5 into
the chain registry leaves the list for key 1 unchanged. -/
theorem C10_inscribe_frame_witness :
    (1 : Nat) ≠ ruleFew.product ∧
    (chainTome.inscribe ruleFew).lookup 1 = chainTome.lookup 1 :=
  ⟨by decide, C10_inscribe_frame chainTome ruleFew 1 (by decide)⟩

theorem get_append_left2 {α : Type _} (l1 l2 : List α) (i : Nat) (h : i < l1.length)
    (h2 : i < (l1 ++ l2).length) : (l1 ++ l2).get ⟨i, h2⟩ = l1.get ⟨i, h⟩ := by
  simp [List.get_eq_getElem, List.getElem_append_left h]

theorem get_append_last2 {α : Type _} (l1 : List α) (a : α)
    (h : l1.length < (l1 ++ [a]).length) : (l1 ++ [a]).get ⟨l1.length, h⟩ = a := by
  simp [List.get_eq_getElem]

theorem keys_nodup_inj {β : Type _} (l : List (Nat × β)) (h : (l.map Prod.fst).Nodup)
    (p : Nat) (i j : β) (hi : (p, i) ∈ l) (hj : (p, j) ∈ l) : i = j := by
  induction l with
  | nil => simp at hi
  | cons kv rest ih =>
    simp only [List.map_cons, List.nodup_cons] at h
    have hfst : ∀ b : β, (p, b) ∈ rest → p ∈ rest.map Prod.fst := by
      intro b hb
      simpa using List.mem_map_of_mem Prod.fst hb
    rcases List.mem_cons.mp hi with hi1 | hi1 <;> rcases List.mem_cons.mp hj with hj1 | hj1
    · exact congrArg Prod.snd (hi1.trans hj1.symm)
    · exfalso
      apply h.1
      have hk1 : kv.1 = p := by rw [← hi1]
      rw [hk1]
      exact hfst j hj1
    · exfalso
      apply h.1
      have hk1 : kv.1 = p := by rw [← hj1]
      rw [hk1]
      exact hfst i hi1
    · exact ih h.2 hi1 hj1

theorem recipeInv_empty : RecipeInv Recipe.empty := by
  refine ⟨?_, ?_, ?_⟩
  · intro p i h
    simp [Recipe.empty] at h
  · simp [Recipe.empty]
  · intro i h
    simp [Recipe.empty] at h

theorem recipeInv_ofRule (c : Rule) : RecipeInv (Recipe.ofRule c) := by
  refine ⟨?_, ?_, ?_⟩
  · intro p i h
    simp only [Recipe.ofRule, List.mem_singleton, Prod.mk.injEq] at h
    obtain ⟨hp, hi⟩ := h
    subst hp
    subst hi
    exact ⟨by simp [Recipe.ofRule], rfl⟩
  · simp [Recipe.ofRule]
  · intro i h
    simp only [Recipe.ofRule, List.length_singleton, Nat.lt_one_iff] at h
    subst h
    exact ⟨c.product, by simp [Recipe.ofRule]⟩

theorem joinList_inv (oS : List Rule) (L : List (Nat × Nat))
    (hL : ∀ p k, (p, k) ∈ L → ∃ h : k < oS.length, (oS.get ⟨k, h⟩).product = p) :
    ∀ acc, RecipeInv acc → RecipeInv (Recipe.joinList oS acc L) := by
  induction L with
  | nil =>
    intro acc h
    exact h
  | cons pk rest ih =>
    obtain ⟨p, k⟩ := pk
    intro acc hacc
    have hrest : ∀ p k, (p, k) ∈ rest → ∃ h : k < oS.length, (oS.get ⟨k, h⟩).product = p :=
      fun q j hm => hL q j (List.mem_cons_of_mem _ hm)
    simp only [Recipe.joinList]
    cases hpk : alookup acc.products p with
    | some i =>
      exact ih hrest acc hacc
    | none =>
      apply ih hrest
      obtain ⟨hk, hkp⟩ := hL p k (List.mem_cons_self _ _)
      refine ⟨?_, ?_, ?_⟩
      · intro q i h
        rcases List.mem_append.mp h with h1 | h1
        · obtain ⟨hlt, hprod⟩ := hacc.entries q i h1
          have hlt2 : i < (acc.steps ++ [oS.getD k Rule.dummy]).length := by
            simp
            omega
          exact ⟨hlt2, by rw [get_append_left2 _ _ _ hlt hlt2, hprod]⟩
        · have h2 := List.mem_singleton.mp h1
          have hq : q = p := congrArg Prod.fst h2
          have hi : i = acc.steps.length := congrArg Prod.snd h2
          subst hq
          subst hi
          have hlt2 : acc.steps.length < (acc.steps ++ [oS.getD k Rule.dummy]).length := by
            simp
          refine ⟨hlt2, ?_⟩
          rw [get_append_last2]
          rw [List.getD_eq_getElem _ _ hk]
          simpa using hkp
      · rw [List.map_append]
        simp only [List.map_cons, List.map_nil]
        rw [List.nodup_append]
        refine ⟨hacc.keysNodup, List.nodup_singleton p, ?_⟩
        intro a ha hb
        rw [List.mem_singleton.mp hb] at ha
        exact (alookup_eq_none acc.products p).mp hpk ha
      · intro i h
        simp only [List.length_append, List.length_singleton] at h
        by_cases hi : i < acc.steps.length
        · obtain ⟨q, hq⟩ := hacc.indexCover i hi
          exact ⟨q, List.mem_append_left _ hq⟩
        · have : i = acc.steps.length := by omega
          subst this
          exact ⟨p, List.mem_append_right _ (List.mem_singleton_self _)⟩

theorem join_inv (σ : MapOrder) (hσ : IterOrder σ) (self other : Recipe)
    (h1 : RecipeInv self) (h2 : RecipeInv other) : RecipeInv (Recipe.join σ self other) :=
  joinList_inv other.steps (σ other.products)
    (fun p k hm => h2.entries p k ((hσ other.products).mem_iff.mp hm)) self h1

theorem foldIngs_inv (res : Nat → Option (Option Recipe)) (σ : MapOrder)
    (hσ : IterOrder σ) (hres : ∀ i r, res i = some (some r) → RecipeInv r) :
    ∀ l acc, RecipeInv acc → ∀ r, foldIngs res σ l acc = some (some r) → RecipeInv r := by
  intro l
  induction l with
  | nil =>
    intro acc hacc r h
    simp only [foldIngs] at h
    cases h
    exact hacc
  | cons ing rest ih =>
    intro acc hacc r h
    simp only [foldIngs] at h
    cases hres2 : res ing with
    | none =>
      rw [hres2] at h
      cases h
    | some o =>
      cases o with
      | none =>
        rw [hres2] at h
        cases h
      | some next =>
        rw [hres2] at h
        exact ih (Recipe.join σ acc next) (join_inv σ hσ _ _ hacc (hres ing next hres2)) r h

theorem tryCircle_inv (res : Nat → Option (Option Recipe)) (σ : MapOrder)
    (hσ : IterOrder σ) (hres : ∀ i r, res i = some (some r) → RecipeInv r)
    (c : Rule) (r : Recipe) (h : tryCircle res σ c = some (some r)) : RecipeInv r := by
  unfold tryCircle at h
  cases hf : foldIngs res σ c.ingredients Recipe.empty with
  | none =>
    rw [hf] at h
    cases h
  | some o =>
    cases o with
    | none =>
      rw [hf] at h
      cases h
    | some pre =>
      rw [hf] at h
      cases h
      exact join_inv σ hσ _ _
        (foldIngs_inv res σ hσ hres c.ingredients Recipe.empty recipeInv_empty pre hf)
        (recipeInv_ofRule c)

theorem findMapCircles_inv (res : Nat → Option (Option Recipe)) (σ : MapOrder)
    (hσ : IterOrder σ) (hres : ∀ i r, res i = some (some r) → RecipeInv r) :
    ∀ l r, findMapCircles res σ l = some (some r) → RecipeInv r := by
  intro l
  induction l with
  | nil =>
    intro r h
    simp [findMapCircles] at h
  | cons c rest ih =>
    intro r h
    simp only [findMapCircles] at h
    cases ht : tryCircle res σ c with
    | none =>
      rw [ht] at h
      cases h
    | some o =>
      cases o with
      | none =>
        rw [ht] at h
        exact ih r h
      | some r2 =>
        rw [ht] at h
        cases h
        exact tryCircle_inv res σ hσ hres c _ ht

theorem researchF_inv (σ : MapOrder) (hσ : IterOrder σ) (t : Tome) :
    ∀ n id r, researchF σ t n id = some (some r) → RecipeInv r := by
  intro n
  induction n with
  | zero =>
    intro id r h
    simp [researchF] at h
  | succ n ih =>
    intro id r h
    simp only [researchF] at h
    cases hl : t.lookup id with
    | none =>
      rw [hl] at h
      cases h
    | some poss =>
      rw [hl] at h
      exact findMapCircles_inv _ σ hσ (fun i r2 h2 => ih i r2 h2) poss r h

theorem recipeInv_stepsNodup (r : Recipe) (h : RecipeInv r) :
    (r.steps.map Rule.product).Nodup := by
  rw [List.nodup_iff_injective_getElem]
  intro a b hab
  obtain ⟨i, hi⟩ := a
  obtain ⟨j, hj⟩ := b
  simp only [List.getElem_map] at hab
  have hi2 : i < r.steps.length := by simpa using hi
  have hj2 : j < r.steps.length := by simpa using hj
  obtain ⟨p, hp⟩ := h.indexCover i hi2
  obtain ⟨q, hq⟩ := h.indexCover j hj2
  obtain ⟨hi3, hpe⟩ := h.entries p i hp
  obtain ⟨hj3, hqe⟩ := h.entries q j hq
  have hpq : p = q := by
    rw [← hpe, ← hqe]
    simp only [List.get_eq_getElem]
    exact hab
  subst hpq
  have := keys_nodup_inj r.products h.keysNodup p i j hp hq
  exact Fin.ext this

/-- Claim C3: every plan returned by research_id has pairwise distinct
product type keys across its steps, for every valid iteration-order
oracle of the internal HashMap: the first-wins deduplication in
Recipe::join never records a product key twice. -/
theorem C3_plans_deduplicated (σ : MapOrder) (hσ : IterOrder σ) (t : Tome)
    (n id : Nat) (r : Recipe) (h : researchF σ t n id = some (some r)) :
    (r.steps.map Rule.product).Nodup :=
  recipeInv_stepsNodup r (researchF_inv σ hσ t n id r h)

/-- Witness for C3: the concrete plan found for key 3 in the chain
registry has distinct product keys. -/
theorem C3_plans_deduplicated_witness :
    researchF idOrd chainTome 3 3 =
      some (some ⟨[fact1, ruleB, ruleC], [(1, 0), (2, 1), (3, 2)]⟩) ∧
    ((Recipe.mk [fact1, ruleB, ruleC] [(1, 0), (2, 1), (3, 2)]).steps.map
      Rule.product).Nodup :=
  ⟨rfl, C3_plans_deduplicated idOrd (fun l => List.Perm.refl l) chainTome 3 3
    ⟨[fact1, ruleB, ruleC], [(1, 0), (2, 1), (3, 2)]⟩ rfl⟩

theorem foldIngs_mono (res res2 : Nat → Option (Option Recipe)) (σ : MapOrder)
    (hm : ∀ i x, res i = some x → res2 i = some x) :
    ∀ l acc x, foldIngs res σ l acc = some x → foldIngs res2 σ l acc = some x := by
  intro l
  induction l with
  | nil =>
    intro acc x h
    simpa [foldIngs] using h
  | cons ing rest ih =>
    intro acc x h
    simp only [foldIngs] at h ⊢
    cases hr : res ing with
    | none =>
      rw [hr] at h
      cases h
    | some o =>
      rw [hr] at h
      rw [hm ing o hr]
      cases o with
      | none => exact h
      | some next => exact ih _ x h

theorem tryCircle_mono (res res2 : Nat → Option (Option Recipe)) (σ : MapOrder)
    (hm : ∀ i x, res i = some x → res2 i = some x) (c : Rule) (x : Option Recipe)
    (h : tryCircle res σ c = some x) : tryCircle res2 σ c = some x := by
  unfold tryCircle at h ⊢
  cases hf : foldIngs res σ c.ingredients Recipe.empty with
  | none =>
    rw [hf] at h
    cases h
  | some o =>
    rw [hf] at h
    rw [foldIngs_mono res res2 σ hm _ _ _ hf]
    exact h

theorem findMapCircles_mono (res res2 : Nat → Option (Option Recipe)) (σ : MapOrder)
    (hm : ∀ i x, res i = some x → res2 i = some x) :
    ∀ l x, findMapCircles res σ l = some x → findMapCircles res2 σ l = some x := by
  intro l
  induction l with
  | nil =>
    intro x h
    simpa [findMapCircles] using h
  | cons c rest ih =>
    intro x h
    simp only [findMapCircles] at h ⊢
    cases ht : tryCircle res σ c with
    | none =>
      rw [ht] at h
      cases h
    | some o =>
      rw [ht] at h
      rw [tryCircle_mono res res2 σ hm c o ht]
      cases o with
      | none => exact ih x h
      | some r => exact h

theorem researchF_mono (σ : MapOrder) (t : Tome) :
    ∀ n m, n ≤ m → ∀ id x, researchF σ t n id = some x → researchF σ t m id = some x := by
  intro n
  induction n with
  | zero =>
    intro m _ id x h
    simp [researchF] at h
  | succ n ih =>
    intro m hm id x h
    cases m with
    | zero => exact absurd hm (Nat.not_succ_le_zero n)
    | succ m2 =>
      have hn : n ≤ m2 := Nat.le_of_succ_le_succ hm
      simp only [researchF] at h ⊢
      cases hl : t.lookup id with
      | none =>
        rw [hl] at h
        exact h
      | some poss =>
        rw [hl] at h
        exact findMapCircles_mono _ _ σ (fun i x2 h2 => ih m2 hn i x2 h2) poss x h

theorem researchF_isSome_mono (σ : MapOrder) (t : Tome) (n m : Nat) (h : n ≤ m)
    (id : Nat) (hs : (researchF σ t n id).isSome = true) :
    (researchF σ t m id).isSome = true := by
  cases hx : researchF σ t n id with
  | none =>
    rw [hx] at hs
    cases hs
  | some x =>
    rw [researchF_mono σ t n m h id x hx]
    rfl

theorem exists_common_fuel (σ : MapOrder) (t : Tome) (ids : List Nat)
    (h : ∀ i, i ∈ ids → ∃ n, (researchF σ t n i).isSome = true) :
    ∃ N, ∀ i, i ∈ ids → (researchF σ t N i).isSome = true := by
  induction ids with
  | nil => exact ⟨0, by simp⟩
  | cons a rest ih =>
    obtain ⟨Na, hNa⟩ := h a (List.mem_cons_self _ _)
    obtain ⟨Nr, hNr⟩ := ih (fun i hi => h i (List.mem_cons_of_mem _ hi))
    refine ⟨max Na Nr, ?_⟩
    intro i hi
    rcases List.mem_cons.mp hi with hi | hi
    · subst hi
      exact researchF_isSome_mono σ t Na _ (Nat.le_max_left _ _) _ hNa
    · exact researchF_isSome_mono σ t Nr _ (Nat.le_max_right _ _) _ (hNr i hi)

theorem foldIngs_isSome (res : Nat → Option (Option Recipe)) (σ : MapOrder) :
    ∀ l acc, (∀ i, i ∈ l → (res i).isSome = true) →
      (foldIngs res σ l acc).isSome = true := by
  intro l
  induction l with
  | nil =>
    intro acc _
    rfl
  | cons ing rest ih =>
    intro acc hres
    simp only [foldIngs]
    cases hr : res ing with
    | none =>
      have := hres ing (List.mem_cons_self _ _)
      rw [hr] at this
      cases this
    | some o =>
      cases o with
      | none => rfl
      | some next => exact ih _ (fun i hi => hres i (List.mem_cons_of_mem _ hi))

theorem tryCircle_isSome (res : Nat → Option (Option Recipe)) (σ : MapOrder) (c : Rule)
    (hres : ∀ i, i ∈ c.ingredients → (res i).isSome = true) :
    (tryCircle res σ c).isSome = true := by
  unfold tryCircle
  cases hf : foldIngs res σ c.ingredients Recipe.empty with
  | none =>
    have := foldIngs_isSome res σ c.ingredients Recipe.empty hres
    rw [hf] at this
    cases this
  | some o =>
    cases o with
    | none => rfl
    | some r => rfl

theorem findMapCircles_isSome (res : Nat → Option (Option Recipe)) (σ : MapOrder) :
    ∀ l, (∀ c, c ∈ l → ∀ i, i ∈ c.ingredients → (res i).isSome = true) →
      (findMapCircles res σ l).isSome = true := by
  intro l
  induction l with
  | nil =>
    intro _
    rfl
  | cons c rest ih =>
    intro hres
    simp only [findMapCircles]
    cases ht : tryCircle res σ c with
    | none =>
      have := tryCircle_isSome res σ c (hres c (List.mem_cons_self _ _))
      rw [ht] at this
      cases this
    | some o =>
      cases o with
      | none => exact ih (fun c2 hc2 => hres c2 (List.mem_cons_of_mem _ hc2))
      | some r => rfl

theorem research_terminates (σ : MapOrder) (t : Tome) (id : Nat)
    (hacc : Acc (fun b a => Depends t a b) id) :
    ∃ n, (researchF σ t n id).isSome = true := by
  induction hacc with
  | intro id hsub ih =>
    cases hl : t.lookup id with
    | none => exact ⟨1, by simp [researchF, hl]⟩
    | some poss =>
      have hdep : ∀ i, i ∈ poss.flatMap Rule.ingredients → Depends t id i := by
        intro i hi
        obtain ⟨c, hc, hci⟩ := List.mem_flatMap.mp hi
        exact ⟨poss, hl, c, hc, hci⟩
      obtain ⟨N, hN⟩ := exists_common_fuel σ t (poss.flatMap Rule.ingredients)
        (fun i hi => ih i (hdep i hi))
      refine ⟨N + 1, ?_⟩
      simp only [researchF, hl]
      apply findMapCircles_isSome
      intro c hc i hi
      exact hN i (List.mem_flatMap.mpr ⟨c, hc, hi⟩)

theorem loopTome_diverges (σ : MapOrder) : ∀ n, researchF σ loopTome n 0 = none := by
  intro n
  induction n with
  | zero => rfl
  | succ n ih =>
    show researchF σ loopTome (n + 1) 0 = none
    have hl : loopTome.lookup 0 = some [loopRule] := rfl
    simp only [researchF, hl]
    have hfold : foldIngs (fun i => researchF σ loopTome n i) σ loopRule.ingredients
        Recipe.empty = none := by
      show foldIngs (fun i => researchF σ loopTome n i) σ [0] Recipe.empty = none
      simp only [foldIngs]
      rw [ih]
    simp only [findMapCircles, tryCircle, hfold]

/-- Claim C4 (amended): research_id terminates for every registry whose
ingredient dependency graph reachable from the requested key is
acyclic, here formalized as accessibility of the requested key under
the direct-dependency relation; and the search performs no cycle
detection: there are registries with a reachable registration cycle on
which it recurses without bound at every depth (loopTome, whose only
rule for key 0 needs key 0).  The original universally quantified
second half is false: a reachable cycle does not force divergence when
an earlier, cheaper candidate satisfies the goal first (see the
counterexample). -/
theorem C4_acyclic_terminates_cycles_can_diverge (σ : MapOrder) (t : Tome) (id : Nat)
    (hacc : Acc (fun b a => Depends t a b) id) :
    (∃ n, (researchF σ t n id).isSome = true) ∧
    (∀ σ2 n, researchF σ2 loopTome n 0 = none) :=
  ⟨research_terminates σ t id hacc, fun σ2 n => loopTome_diverges σ2 n⟩

/-- Witness for C4 (amended) at the empty registry, whose dependency
relation has no edge at all, together with the divergent cyclic
registry. -/
theorem C4_acyclic_terminates_cycles_can_diverge_witness :
    (∃ n, (researchF idOrd Tome.empty n 0).isSome = true) ∧
    (∀ σ2 n, researchF σ2 loopTome n 0 = none) :=
  C4_acyclic_terminates_cycles_can_diverge idOrd Tome.empty 0
    (Acc.intro 0 (by
      intro y hy
      obtain ⟨l, hl, _⟩ := hy
      simp [Tome.lookup, Tome.empty, alookup] at hl))

/-- Counterexample to C4 as stated: in cycFactTome, rule registration
forms a cycle reachable from the requested key 0 (key 0 directly
depends on itself through loopRule), yet the search terminates, because
the zero-ingredient fact for key 0 is sorted first and succeeds. -/
theorem C4_reachable_cycle_yet_terminating :
    Depends cycFactTome 0 0 ∧ (researchF idOrd cycFactTome 2 0).isSome = true := by
  constructor
  · exact ⟨[mkEther 0 7, loopRule], rfl, loopRule,
      List.mem_cons_of_mem _ (List.mem_singleton_self _), List.mem_singleton_self 0⟩
  · rfl

theorem foldIngs_success_each (res : Nat → Option (Option Recipe)) (σ : MapOrder) :
    ∀ l acc r, foldIngs res σ l acc = some (some r) →
      ∀ ing, ing ∈ l → ∃ ri, res ing = some (some ri) := by
  intro l
  induction l with
  | nil =>
    intro acc r h ing hi
    simp at hi
  | cons a rest ih =>
    intro acc r h ing hi
    simp only [foldIngs] at h
    cases hr : res a with
    | none =>
      rw [hr] at h
      cases h
    | some o =>
      cases o with
      | none =>
        rw [hr] at h
        cases h
      | some next =>
        rw [hr] at h
        rcases List.mem_cons.mp hi with hi | hi
        · subst hi
          exact ⟨next, hr⟩
        · exact ih _ r h ing hi

theorem findMapCircles_success_split (res : Nat → Option (Option Recipe)) (σ : MapOrder) :
    ∀ l r, findMapCircles res σ l = some (some r) →
      ∃ l1 c l2, l = l1 ++ c :: l2 ∧
        (∀ c2, c2 ∈ l1 → tryCircle res σ c2 = some none) ∧
        tryCircle res σ c = some (some r) := by
  intro l
  induction l with
  | nil =>
    intro r h
    simp [findMapCircles] at h
  | cons c rest ih =>
    intro r h
    simp only [findMapCircles] at h
    cases ht : tryCircle res σ c with
    | none =>
      rw [ht] at h
      cases h
    | some o =>
      cases o with
      | none =>
        rw [ht] at h
        obtain ⟨l1, c2, l2, he, hfail, hsucc⟩ := ih r h
        refine ⟨c :: l1, c2, l2, by rw [he]; rfl, ?_, hsucc⟩
        intro c3 hc3
        rcases List.mem_cons.mp hc3 with hc3 | hc3
        · subst hc3
          exact ht
        · exact hfail c3 hc3
      | some r2 =>
        rw [ht] at h
        cases h
        exact ⟨[], c, rest, rfl, by simp, ht⟩

theorem tryCircle_success (res : Nat → Option (Option Recipe)) (σ : MapOrder)
    (c : Rule) (r : Recipe) (h : tryCircle res σ c = some (some r)) :
    ∃ pre, foldIngs res σ c.ingredients Recipe.empty = some (some pre) ∧
      r = Recipe.join σ pre (Recipe.ofRule c) := by
  unfold tryCircle at h
  cases hf : foldIngs res σ c.ingredients Recipe.empty with
  | none =>
    rw [hf] at h
    cases h
  | some o =>
    cases o with
    | none =>
      rw [hf] at h
      cases h
    | some pre =>
      rw [hf] at h
      cases h
      exact ⟨pre, rfl, rfl⟩

theorem researchF_succ_inversion (σ : MapOrder) (t : Tome) (n id : Nat) (r : Recipe)
    (h : researchF σ t (n + 1) id = some (some r)) :
    ∃ poss, t.lookup id = some poss ∧
      ∃ l1 c l2, poss = l1 ++ c :: l2 ∧
        (∀ c2, c2 ∈ l1 → tryCircle (fun i => researchF σ t n i) σ c2 = some none) ∧
        ∃ pre, foldIngs (fun i => researchF σ t n i) σ c.ingredients Recipe.empty =
            some (some pre) ∧
          r = Recipe.join σ pre (Recipe.ofRule c) := by
  simp only [researchF] at h
  cases hl : t.lookup id with
  | none =>
    rw [hl] at h
    cases h
  | some poss =>
    rw [hl] at h
    obtain ⟨l1, c, l2, he, hfail, hsucc⟩ := findMapCircles_success_split _ σ poss r h
    obtain ⟨pre, hpre, hr⟩ := tryCircle_success _ σ c r hsucc
    exact ⟨poss, rfl, l1, c, l2, he, hfail, pre, hpre, hr⟩

theorem researchF_supplyable (σ : MapOrder) (t : Tome) :
    ∀ n id r, researchF σ t n id = some (some r) → Supplyable t id := by
  intro n
  induction n with
  | zero =>
    intro id r h
    simp [researchF] at h
  | succ n ih =>
    intro id r h
    obtain ⟨poss, hl, l1, c, l2, he, hfail, pre, hpre, hr⟩ :=
      researchF_succ_inversion σ t n id r h
    refine Supplyable.mk id poss c hl ?_ ?_
    · rw [he]
      exact List.mem_append_right _ (List.mem_cons_self _ _)
    · intro ing hing
      obtain ⟨ri, hri⟩ := foldIngs_success_each _ σ c.ingredients Recipe.empty pre hpre ing hing
      exact ih ing ri hri

theorem loopTome_not_supplyable : ∀ id, Supplyable loopTome id → False := by
  intro id h
  induction h with
  | mk id l c hl hc hsub ih =>
    have hlook : loopTome.lookup id = if id = 0 then some [loopRule] else none := rfl
    rw [hlook] at hl
    by_cases h0 : id = 0
    · rw [if_pos h0] at hl
      injection hl with hl2
      subst hl2
      have hc2 : c = loopRule := List.mem_singleton.mp hc
      apply ih 0
      rw [hc2]
      exact List.mem_singleton_self 0
    · rw [if_neg h0] at hl
      cases hl

/-- Claim C7 (amended): whenever the plan search comes back with any
definite answer and no registered rule chain can supply the target key
(no well-founded derivation exists), summon returns the normal
not-found outcome, never a fatal one.  The original claim is false
without the termination condition: on the cyclic registry loopTome the
search never comes back at all (see the counterexample), which in Rust
is unbounded recursion, not a returned None. -/
theorem C7_unsatisfiable_returns_notFound (σ : MapOrder) (t : Tome) (n id : Nat)
    (x : Option Recipe) (hns : ¬ Supplyable t id) (hterm : researchF σ t n id = some x) :
    summonF σ t n id = some SummonRes.notFound := by
  cases x with
  | none => simp [summonF, hterm]
  | some r => exact absurd (researchF_supplyable σ t n id r hterm) hns

/-- Witness for C7 (amended): requesting a key with zero registered
rules in the empty registry returns the normal not-found result. -/
theorem C7_unsatisfiable_returns_notFound_witness :
    (¬ Supplyable Tome.empty 0) ∧ summonF idOrd Tome.empty 1 0 = some SummonRes.notFound := by
  have hns : ¬ Supplyable Tome.empty 0 := by
    intro h
    cases h with
    | mk id l c hl hc hsub => exact Option.noConfusion hl
  exact ⟨hns, C7_unsatisfiable_returns_notFound idOrd Tome.empty 1 0 none hns rfl⟩

/-- Counterexample to C7 as stated: for loopTome no registered rule
chain can supply key 0 (its only rule needs key 0 itself), yet summon
does not return the normal not-found outcome: the search recurses
without bound, never returning at any depth. -/
theorem C7_counterexample_cycle_diverges :
    (¬ Supplyable loopTome 0) ∧ summonDiverges loopTome 0 := by
  constructor
  · intro h
    exact loopTome_not_supplyable 0 h
  · intro n
    simp [summonDiverges, summonF, loopTome_diverges idOrd n]

theorem iterOrder_singleton (σ : MapOrder) (hσ : IterOrder σ) (x : Nat × Nat) :
    σ [x] = [x] :=
  List.perm_singleton.mp (hσ [x])

/-- Claim C8: registering a value as a fact (ether) for a type key
with no other rules producing it, then summoning that key, returns
exactly the stored value, and the plan found consists of that single
zero-ingredient fact rule. -/
theorem C8_fact_shortcut (σ : MapOrder) (hσ : IterOrder σ) (t : Tome) (F v : Nat)
    (hno : t.lookup F = none) :
    summonF σ (t.ether F v) 2 F = some (SummonRes.ok v) ∧
    researchF σ (t.ether F v) 2 F = some (some ⟨[mkEther F v], [(F, 0)]⟩) := by
  have hno2 : alookup t.circles F = none := hno
  have hlk : (t.ether F v).lookup F = some [mkEther F v] := by
    simp [Tome.ether, Tome.inscribe, Tome.lookup, mkEther, hno2, sortByCount,
      insertByCount, alookup_aupdate_self]
  have hres : researchF σ (t.ether F v) 2 F = some (some ⟨[mkEther F v], [(F, 0)]⟩) := by
    simp only [researchF, hlk, findMapCircles, tryCircle, mkEther, foldIngs,
      Recipe.join, Recipe.ofRule]
    rw [iterOrder_singleton σ hσ]
    simp [Recipe.joinList, alookup, Recipe.empty, List.getD]
  refine ⟨?_, hres⟩
  simp only [summonF, hres]
  simp [runFrom, Materials.apply, Materials.getAll, mkEther, Materials.insert,
    Materials.intoMaterial, Materials.get, Materials.empty, aupdate, alookup]

/-- Witness for C8 at the empty registry with type key 4 and value 9. -/
theorem C8_fact_shortcut_witness :
    Tome.empty.lookup 4 = none ∧
    (summonF idOrd (Tome.empty.ether 4 9) 2 4 = some (SummonRes.ok 9) ∧
     researchF idOrd (Tome.empty.ether 4 9) 2 4 = some (some ⟨[mkEther 4 9], [(4, 0)]⟩)) :=
  ⟨rfl, C8_fact_shortcut idOrd (fun l => List.Perm.refl l) Tome.empty 4 9 rfl⟩

theorem getAll_success_mem (m : Materials) :
    ∀ l ds, m.getAll l = some ds → ∀ i, i ∈ l → (m.get i).isSome = true := by
  intro l
  induction l with
  | nil =>
    intro ds h i hi
    simp at hi
  | cons a rest ih =>
    intro ds h i hi
    simp only [Materials.getAll] at h
    cases hg : m.get a with
    | none =>
      rw [hg] at h
      cases h
    | some d =>
      rw [hg] at h
      cases hr : m.getAll rest with
      | none =>
        rw [hr] at h
        cases h
      | some ds2 =>
        rcases List.mem_cons.mp hi with hi | hi
        · subst hi
          rw [hg]
          rfl
        · exact ih ds2 hr i hi

theorem get_insert (m : Materials) (k : Nat) (v : Dyn) (a : Nat) :
    (m.insert k v).get a = if a = k then some v else m.get a := by
  by_cases h : a = k
  · subst h
    simp [Materials.insert, Materials.get, alookup_aupdate_self]
  · simp [Materials.insert, Materials.get, alookup_aupdate_ne _ _ _ _ h, h]

theorem runFrom_success_deps :
    ∀ (l : List Rule) (m m2 : Materials), runFrom m l = some m2 →
      ∀ (i : Nat) (hi : i < l.length) (ing : Nat), ing ∈ (l.get ⟨i, hi⟩).ingredients →
        (m.get ing).isSome = true ∨
          ∃ (j : Nat) (hj : j < l.length), j < i ∧ (l.get ⟨j, hj⟩).product = ing := by
  intro l
  induction l with
  | nil =>
    intro m m2 h i hi
    simp at hi
  | cons c rest ih =>
    intro m m2 h i hi ing hing
    simp only [runFrom] at h
    cases ha : m.apply c with
    | none =>
      rw [ha] at h
      cases h
    | some m1 =>
      rw [ha] at h
      unfold Materials.apply at ha
      cases hg : m.getAll c.ingredients with
      | none =>
        rw [hg] at ha
        cases ha
      | some ds =>
        rw [hg] at ha
        injection ha with ha2
        cases i with
        | zero =>
          left
          exact getAll_success_mem m c.ingredients ds hg ing hing
        | succ i2 =>
          have hi2 : i2 < rest.length := by simpa using hi
          have hing2 : ing ∈ (rest.get ⟨i2, hi2⟩).ingredients := hing
          rcases ih m1 m2 h i2 hi2 ing hing2 with hcase | ⟨j, hj, hlt, hprod⟩
          · rw [← ha2, get_insert] at hcase
            by_cases he : ing = c.product
            · right
              refine ⟨0, by simp, Nat.succ_pos i2, ?_⟩
              exact he.symm
            · rw [if_neg he] at hcase
              left
              exact hcase
          · right
            exact ⟨j + 1, by simpa using Nat.succ_lt_succ hj, Nat.succ_lt_succ hlt, hprod⟩

theorem runFrom_empty_depOrdered (steps : List Rule) (m2 : Materials)
    (h : runFrom Materials.empty steps = some m2)
    (hnodup : (steps.map Rule.product).Nodup) : DepOrdered steps := by
  intro i j hi hj ing hing hprod
  rcases runFrom_success_deps steps Materials.empty m2 h i hi ing hing with
    hc | ⟨j0, hj0, hlt, hprod0⟩
  · simp [Materials.get, Materials.empty, alookup] at hc
  · have hjm : j < (steps.map Rule.product).length := by simpa using hj
    have hj0m : j0 < (steps.map Rule.product).length := by simpa using hj0
    have hget : (steps.map Rule.product)[j] = (steps.map Rule.product)[j0] := by
      rw [List.getElem_map, List.getElem_map]
      rw [List.get_eq_getElem] at hprod hprod0
      exact hprod.trans hprod0.symm
    have hinj := List.nodup_iff_injective_getElem.mp hnodup
    have hjj := @hinj ⟨j, hjm⟩ ⟨j0, hj0m⟩ hget
    have hje : j = j0 := congrArg Fin.val hjj
    omega

/-- Claim C2: whenever summon returns a value, the plan that was
produced for it is dependency ordered (every rule appears after every
rule producing one of its ingredients) and executing its rules in
order, feeding each from the store, never encounters a missing
ingredient: the lookups in Materials::apply all succeed, i.e. the whole
run returns a store rather than the panic marker. -/
theorem C2_successful_summon_plan_sound (σ : MapOrder) (hσ : IterOrder σ) (t : Tome)
    (n id v : Nat) (h : summonF σ t n id = some (SummonRes.ok v)) :
    ∃ r, researchF σ t n id = some (some r) ∧ DepOrdered r.steps ∧
      ∃ m2, runFrom Materials.empty r.steps = some m2 := by
  unfold summonF at h
  cases hres : researchF σ t n id with
  | none =>
    rw [hres] at h
    cases h
  | some o =>
    cases o with
    | none =>
      rw [hres] at h
      simp at h
    | some r =>
      rw [hres] at h
      have h2 : (match runFrom Materials.empty r.steps with
        | none => some SummonRes.fatal
        | some mats =>
          match mats.intoMaterial id with
          | none => some SummonRes.fatal
          | some v2 => some (SummonRes.ok v2)) = some (SummonRes.ok v) := h
      cases hrun : runFrom Materials.empty r.steps with
      | none =>
        rw [hrun] at h2
        simp at h2
      | some m2 =>
        refine ⟨r, rfl, ?_, m2, hrun⟩
        exact runFrom_empty_depOrdered r.steps m2 hrun
          (recipeInv_stepsNodup r (researchF_inv σ hσ t n id r hres))

/-- Witness for C2: the summon of key 3 over the chain registry
succeeds with value 30, so its plan is dependency ordered and runs
without a missing ingredient. -/
theorem C2_successful_summon_plan_sound_witness :
    summonF idOrd chainTome 3 3 = some (SummonRes.ok 30) ∧
    (∃ r, researchF idOrd chainTome 3 3 = some (some r) ∧ DepOrdered r.steps ∧
      ∃ m2, runFrom Materials.empty r.steps = some m2) :=
  ⟨rfl, C2_successful_summon_plan_sound idOrd (fun l => List.Perm.refl l)
    chainTome 3 3 30 rfl⟩

/-- Claim C1 (code defect, demonstration): the step order of a found
plan depends on the iteration order of the products HashMap inside
Recipe::join.  Both orders below are valid iteration orders of that
map (they permute its entries; std HashMap order is randomized per
instance in Rust), and for the same unmodified registry and target
they yield plans with different rule sequences, so two find_plan calls
need not return identical sequences. -/
theorem C1_plan_order_depends_on_hashmap_order :
    IterOrder idOrd ∧ IterOrder revOrd ∧
    (researchF idOrd chainTome 3 3).map (Option.map (fun r => r.steps.map Rule.product)) =
      some (some [1, 2, 3]) ∧
    (researchF revOrd chainTome 3 3).map (Option.map (fun r => r.steps.map Rule.product)) =
      some (some [2, 1, 3]) :=
  ⟨fun l => List.Perm.refl l, fun l => List.reverse_perm l, by decide, by decide⟩

theorem joinList_keys (oS : List Rule) :
    ∀ (L : List (Nat × Nat)) (acc : Recipe) (p : Nat),
      p ∈ (Recipe.joinList oS acc L).products.map Prod.fst ↔
        (p ∈ acc.products.map Prod.fst ∨ p ∈ L.map Prod.fst) := by
  intro L
  induction L with
  | nil =>
    intro acc p
    simp [Recipe.joinList]
  | cons qk rest ih =>
    obtain ⟨q, k⟩ := qk
    intro acc p
    simp only [Recipe.joinList]
    cases hq : alookup acc.products q with
    | some i =>
      rw [ih]
      have hqmem : q ∈ acc.products.map Prod.fst := by
        simpa using List.mem_map_of_mem Prod.fst (alookup_mem _ _ _ hq)
      simp only [List.map_cons, List.mem_cons]
      constructor
      · rintro (h | h)
        · exact Or.inl h
        · exact Or.inr (Or.inr h)
      · rintro (h | h | h)
        · exact Or.inl h
        · exact Or.inl (h ▸ hqmem)
        · exact Or.inr h
    | none =>
      rw [ih]
      simp only [List.map_append, List.map_cons, List.map_nil, List.mem_append,
        List.mem_cons, List.mem_singleton]
      constructor
      · rintro ((h | h) | h)
        · exact Or.inl h
        · simp at h
          exact Or.inr (Or.inl h)
        · exact Or.inr (Or.inr h)
      · rintro (h | h | h)
        · exact Or.inl (Or.inl h)
        · exact Or.inl (Or.inr (by simp [h]))
        · exact Or.inr h

theorem join_keys (σ : MapOrder) (hσ : IterOrder σ) (self other : Recipe) (p : Nat) :
    p ∈ (Recipe.join σ self other).products.map Prod.fst ↔
      (p ∈ self.products.map Prod.fst ∨ p ∈ other.products.map Prod.fst) := by
  unfold Recipe.join
  rw [joinList_keys]
  have hiff : p ∈ (σ other.products).map Prod.fst ↔ p ∈ other.products.map Prod.fst :=
    ((hσ other.products).map Prod.fst).mem_iff
  tauto

theorem foldIngs_keys_source (res : Nat → Option (Option Recipe)) (σ : MapOrder)
    (hσ : IterOrder σ) :
    ∀ l acc r, foldIngs res σ l acc = some (some r) →
      ∀ p, p ∈ r.products.map Prod.fst →
        p ∈ acc.products.map Prod.fst ∨
          ∃ ing, ing ∈ l ∧ ∃ ri, res ing = some (some ri) ∧
            p ∈ ri.products.map Prod.fst := by
  intro l
  induction l with
  | nil =>
    intro acc r h p hp
    simp only [foldIngs] at h
    cases h
    exact Or.inl hp
  | cons a rest ih =>
    intro acc r h p hp
    simp only [foldIngs] at h
    cases hr : res a with
    | none =>
      rw [hr] at h
      cases h
    | some o =>
      cases o with
      | none =>
        rw [hr] at h
        cases h
      | some next =>
        rw [hr] at h
        rcases ih (Recipe.join σ acc next) r h p hp with hacc | ⟨ing, hing, ri, hri, hpri⟩
        · rw [join_keys σ hσ] at hacc
          rcases hacc with hacc | hacc
          · exact Or.inl hacc
          · exact Or.inr ⟨a, List.mem_cons_self _ _, next, hr, hacc⟩
        · exact Or.inr ⟨ing, List.mem_cons_of_mem _ hing, ri, hri, hpri⟩

theorem researchF_products_complete (σ : MapOrder) (hσ : IterOrder σ) (t : Tome)
    (hwf : t.WF) :
    ∀ n id r, researchF σ t n id = some (some r) →
      ∀ p, p ∈ r.products.map Prod.fst → ∃ rp, researchF σ t n p = some (some rp) := by
  intro n
  induction n with
  | zero =>
    intro id r h
    simp [researchF] at h
  | succ n ih =>
    intro id r h p hp
    obtain ⟨poss, hl, l1, c, l2, he, hfail, pre, hpre, hr⟩ :=
      researchF_succ_inversion σ t n id r h
    rw [hr, join_keys σ hσ] at hp
    rcases hp with hp | hp
    · rcases foldIngs_keys_source _ σ hσ c.ingredients Recipe.empty pre hpre p hp with
        h0 | ⟨ing, hing, ri, hri, hpri⟩
      · simp [Recipe.empty] at h0
      · obtain ⟨rp, hrp⟩ := ih ing ri hri p hpri
        exact ⟨rp, researchF_mono σ t n (n + 1) (Nat.le_succ n) p _ hrp⟩
    · simp only [Recipe.ofRule, List.map_cons, List.map_nil, List.mem_singleton] at hp
      have hcid : c.product = id := hwf id poss hl c
        (by rw [he]; exact List.mem_append_right _ (List.mem_cons_self _ _))
      subst hp
      rw [hcid]
      exact ⟨_, h⟩

theorem recipeInv_step_product_mem_keys (r : Recipe) (h : RecipeInv r) (s : Rule)
    (hs : s ∈ r.steps) : s.product ∈ r.products.map Prod.fst := by
  obtain ⟨i, hi, hgeti⟩ := List.mem_iff_getElem.mp hs
  obtain ⟨p, hp⟩ := h.indexCover i hi
  obtain ⟨hi2, hpe⟩ := h.entries p i hp
  have hsp : s.product = p := by
    rw [← hgeti]
    rw [List.get_eq_getElem] at hpe
    exact hpe
  rw [hsp]
  simpa using List.mem_map_of_mem Prod.fst hp

theorem join_ofRule_not_mem (σ : MapOrder) (hσ : IterOrder σ) (pre : Recipe) (c : Rule)
    (hnot : c.product ∉ pre.products.map Prod.fst) :
    (Recipe.join σ pre (Recipe.ofRule c)).steps = pre.steps ++ [c] ∧
    (Recipe.join σ pre (Recipe.ofRule c)).products =
      pre.products ++ [(c.product, pre.steps.length)] := by
  unfold Recipe.join Recipe.ofRule
  rw [iterOrder_singleton σ hσ]
  have hl : alookup pre.products c.product = none := (alookup_eq_none _ _).mpr hnot
  simp [Recipe.joinList, hl]

theorem exists_common_success_fuel (σ : MapOrder) (t : Tome) (ids : List Nat)
    (h : ∀ i, i ∈ ids → ∃ k rk, researchF σ t k i = some (some rk)) :
    ∃ N, ∀ i, i ∈ ids → ∃ rk, researchF σ t N i = some (some rk) := by
  induction ids with
  | nil => exact ⟨0, by simp⟩
  | cons a rest ih =>
    obtain ⟨Na, ra, hNa⟩ := h a (List.mem_cons_self _ _)
    obtain ⟨Nr, hNr⟩ := ih (fun i hi => h i (List.mem_cons_of_mem _ hi))
    refine ⟨max Na Nr, ?_⟩
    intro i hi
    rcases List.mem_cons.mp hi with hi | hi
    · subst hi
      exact ⟨ra, researchF_mono σ t Na _ (Nat.le_max_left _ _) _ _ hNa⟩
    · obtain ⟨rk, hrk⟩ := hNr i hi
      exact ⟨rk, researchF_mono σ t Nr _ (Nat.le_max_right _ _) _ _ hrk⟩

theorem foldIngs_success_of_each (res : Nat → Option (Option Recipe)) (σ : MapOrder) :
    ∀ l acc, (∀ i, i ∈ l → ∃ ri, res i = some (some ri)) →
      ∃ out, foldIngs res σ l acc = some (some out) := by
  intro l
  induction l with
  | nil =>
    intro acc _
    exact ⟨acc, rfl⟩
  | cons a rest ih =>
    intro acc hres
    obtain ⟨ra, hra⟩ := hres a (List.mem_cons_self _ _)
    obtain ⟨out, hout⟩ := ih (Recipe.join σ acc ra)
      (fun i hi => hres i (List.mem_cons_of_mem _ hi))
    refine ⟨out, ?_⟩
    simp only [foldIngs, hra]
    exact hout

theorem foldIngs_deffail (res : Nat → Option (Option Recipe)) (σ : MapOrder) :
    ∀ l acc, foldIngs res σ l acc = some none →
      ∃ ing, ing ∈ l ∧ res ing = some none := by
  intro l
  induction l with
  | nil =>
    intro acc h
    simp [foldIngs] at h
  | cons a rest ih =>
    intro acc h
    simp only [foldIngs] at h
    cases hr : res a with
    | none =>
      rw [hr] at h
      cases h
    | some o =>
      cases o with
      | none => exact ⟨a, List.mem_cons_self _ _, hr⟩
      | some next =>
        rw [hr] at h
        obtain ⟨ing, hing, h2⟩ := ih _ h
        exact ⟨ing, List.mem_cons_of_mem _ hing, h2⟩

theorem tryCircle_deffail (res : Nat → Option (Option Recipe)) (σ : MapOrder) (c : Rule)
    (h : tryCircle res σ c = some none) :
    ∃ ing, ing ∈ c.ingredients ∧ res ing = some none := by
  unfold tryCircle at h
  cases hf : foldIngs res σ c.ingredients Recipe.empty with
  | none =>
    rw [hf] at h
    cases h
  | some o =>
    cases o with
    | none => exact foldIngs_deffail res σ c.ingredients Recipe.empty hf
    | some r =>
      rw [hf] at h
      cases h

theorem researchF_shape (σ : MapOrder) (hσ : IterOrder σ) (t : Tome) (hwf : t.WF) :
    ∀ n id r, researchF σ t n id = some (some r) →
      ∃ (k : Nat) (l1 : List Rule) (c : Rule) (l2 : List Rule) (pre : Recipe),
        t.lookup id = some (l1 ++ c :: l2) ∧
        (∀ c2, c2 ∈ l1 → tryCircle (fun i => researchF σ t k i) σ c2 = some none) ∧
        foldIngs (fun i => researchF σ t k i) σ c.ingredients Recipe.empty =
          some (some pre) ∧
        id ∉ pre.products.map Prod.fst ∧
        r = Recipe.join σ pre (Recipe.ofRule c) := by
  intro n
  induction n using Nat.strong_induction_on with
  | _ n ihs =>
    intro id r h
    cases n with
    | zero => simp [researchF] at h
    | succ m =>
      obtain ⟨poss, hl, l1, c, l2, he, hfail, pre, hpre, hr⟩ :=
        researchF_succ_inversion σ t m id r h
      by_cases hid : id ∈ pre.products.map Prod.fst
      · rcases foldIngs_keys_source _ σ hσ c.ingredients Recipe.empty pre hpre id hid with
          h0 | ⟨ing, hing, ri, hri, hpri⟩
        · simp [Recipe.empty] at h0
        · obtain ⟨rp, hrp⟩ := researchF_products_complete σ hσ t hwf m ing ri hri id hpri
          have hmono := researchF_mono σ t m (m + 1) (Nat.le_succ m) id _ hrp
          rw [h] at hmono
          injection hmono with hmono2
          injection hmono2 with hmono3
          exact ihs m (Nat.lt_succ_self m) id r (hmono3 ▸ hrp)
      · rw [he] at hl
        exact ⟨m, l1, c, l2, pre, hl, hfail, hpre, hid, hr⟩

/-- Claim C5: for a registry (well formed: every stored rule produces
its key) whose candidate list for a key holds two rules with the
smaller-ingredient one first (the order inscribe maintains, see C6),
when both rules have all their ingredients satisfiable, the search
succeeds and the rule with fewer ingredients is the producer of that
key in the plan: it is a step, the other rule is not, and every step
producing the key is that rule. -/
theorem C5_fewest_ingredients_preferred (σ : MapOrder) (hσ : IterOrder σ) (t : Tome)
    (hwf : t.WF) (id : Nat) (r1 r2 : Rule)
    (hl : t.lookup id = some [r1, r2])
    (hcount : r1.ingredients.length < r2.ingredients.length)
    (hsat1 : ∀ ing, ing ∈ r1.ingredients → ∃ k rk, researchF σ t k ing = some (some rk))
    (_hsat2 : ∀ ing, ing ∈ r2.ingredients → ∃ k rk, researchF σ t k ing = some (some rk)) :
    ∃ n r, researchF σ t n id = some (some r) ∧ r1 ∈ r.steps ∧ r2 ∉ r.steps ∧
      ∀ s, s ∈ r.steps → s.product = id → s = r1 := by
  have hp1 : r1.product = id := hwf id [r1, r2] hl r1 (List.mem_cons_self _ _)
  have hp2 : r2.product = id := hwf id [r1, r2] hl r2
    (List.mem_cons_of_mem _ (List.mem_singleton_self _))
  obtain ⟨N, hN⟩ := exists_common_success_fuel σ t r1.ingredients hsat1
  obtain ⟨out, hout⟩ := foldIngs_success_of_each (fun i => researchF σ t N i) σ
    r1.ingredients Recipe.empty (fun i hi => hN i hi)
  have htry : tryCircle (fun i => researchF σ t N i) σ r1 =
      some (some (Recipe.join σ out (Recipe.ofRule r1))) := by
    unfold tryCircle
    rw [hout]
  have hres1 : researchF σ t (N + 1) id =
      some (some (Recipe.join σ out (Recipe.ofRule r1))) := by
    simp only [researchF, hl, findMapCircles, htry]
  obtain ⟨k, l1, c, l2, pre, hl2, hfail, hpre, hid, hr⟩ :=
    researchF_shape σ hσ t hwf (N + 1) id _ hres1
  have hlist : l1 ++ c :: l2 = [r1, r2] := by
    rw [hl2] at hl
    injection hl
  have hc1 : c = r1 := by
    cases l1 with
    | nil =>
      simpa using congrArg (fun l => l.headD Rule.dummy) hlist
    | cons a l1t =>
      cases l1t with
      | nil =>
        exfalso
        have ha : a = r1 := by simpa using congrArg (fun l => l.headD Rule.dummy) hlist
        have hfa := hfail a (List.mem_singleton_self a)
        rw [ha] at hfa
        obtain ⟨ing, hing, hdf⟩ := tryCircle_deffail _ σ r1 hfa
        obtain ⟨rk, hrk⟩ := hN ing hing
        have h1 := researchF_mono σ t k (max k N) (Nat.le_max_left _ _) ing _ hdf
        have h2 := researchF_mono σ t N (max k N) (Nat.le_max_right _ _) ing _ hrk
        rw [h1] at h2
        cases h2
      | cons b l1tt =>
        exfalso
        have hlen := congrArg List.length hlist
        simp [List.length_append] at hlen
  subst hc1
  have hnot : c.product ∉ pre.products.map Prod.fst := by
    rw [hp1]
    exact hid
  obtain ⟨hsteps, hprods⟩ := join_ofRule_not_mem σ hσ pre c hnot
  have hpreinv : RecipeInv pre :=
    foldIngs_inv (fun i => researchF σ t k i) σ hσ
      (fun i ri hri => researchF_inv σ hσ t k i ri hri) c.ingredients Recipe.empty
      recipeInv_empty pre hpre
  refine ⟨N + 1, Recipe.join σ pre (Recipe.ofRule c), hr ▸ hres1, ?_, ?_, ?_⟩
  · rw [hsteps]
    exact List.mem_append_right _ (List.mem_singleton_self _)
  · rw [hsteps]
    intro hmem
    rcases List.mem_append.mp hmem with hmem | hmem
    · have := recipeInv_step_product_mem_keys pre hpreinv r2 hmem
      rw [hp2] at this
      exact hid this
    · have heq : r2 = c := List.mem_singleton.mp hmem
      rw [heq] at hcount
      exact Nat.lt_irrefl _ hcount
  · intro s hs hsp
    rw [hsteps] at hs
    rcases List.mem_append.mp hs with hs | hs
    · exfalso
      have := recipeInv_step_product_mem_keys pre hpreinv s hs
      rw [hsp] at this
      exact hid this
    · exact List.mem_singleton.mp hs

/-- Witness for C5: in prefTome the two competing rules for key 5 are
stored few-first, both chains resolve through the fact for key 1, and
the one-ingredient rule is the unique producer of key 5 in the found
plan. -/
theorem C5_fewest_ingredients_preferred_witness :
    prefTome.lookup 5 = some [ruleFew, ruleMany] ∧
    ruleFew.ingredients.length < ruleMany.ingredients.length ∧
    (∃ n r, researchF idOrd prefTome n 5 = some (some r) ∧ ruleFew ∈ r.steps ∧
      ruleMany ∉ r.steps ∧ ∀ s, s ∈ r.steps → s.product = 5 → s = ruleFew) := by
  refine ⟨rfl, by decide, ?_⟩
  have hwf : prefTome.WF :=
    Tome.WF_inscribe _ ruleFew (Tome.WF_inscribe _ ruleMany
      (Tome.WF_inscribe _ (mkEther 1 10) Tome.WF_empty))
  have hone : ∃ k rk, researchF idOrd prefTome k 1 = some (some rk) :=
    ⟨1, ⟨[fact1], [(1, 0)]⟩, rfl⟩
  exact C5_fewest_ingredients_preferred idOrd (fun l => List.Perm.refl l) prefTome hwf 5
    ruleFew ruleMany rfl (by decide)
    (fun ing hing => by
      have h1 : ing = 1 := by simpa [ruleFew] using hing
      rw [h1]
      exact hone)
    (fun ing hing => by
      have h1 : ing = 1 := by simpa [ruleMany] using hing
      rw [h1]
      exact hone)
